import Mathlib

/-!
Verification of the csgo circuit-gadget library: the key/value selector
(`Map` / `Mux` in `transpiled/selector/multiplexer.go`) and the bounded
signed comparator (`BoundedComparator` in `cmp/bounded.csgo` and its
transpiled Go form), over a shallow embedding of the gnark-style
constraint system.

Field elements are modelled as `ZMod P`.  Circuit construction is
modelled by pure functions that return the value computed for each
output variable together with the list of emitted constraints; the
non-deterministic hint oracles are modelled by the pure functions the
source registers, evaluated on the concrete values (`ZMod.val`) of
their inputs, exactly as witness generation does.
-/

namespace Csgo

/-- Three-way comparison of naturals, mirroring Go `big.Int.Cmp` on
non-negative values: `-1` if `a < b`, `0` if `a = b`, `1` if `a > b`. -/
def natCmp (a b : ℕ) : ℤ :=
  if a < b then -1 else if a = b then 0 else 1

/-- Three-way comparison of integers, mirroring Go `big.Int.Cmp`. -/
def intCmp (a b : ℤ) : ℤ :=
  if a < b then -1 else if a = b then 0 else 1

/-- Fuel-driven halving loop computing the binary length of a natural
number.  The fuel only makes the recursion structural; `natBitLen`
supplies enough fuel for the result to be exact. -/
def bitLenAux : ℕ → ℕ → ℕ
  | 0, _ => 0
  | fuel + 1, n => if n = 0 then 0 else bitLenAux fuel (n / 2) + 1

/-- Binary length of a natural number, mirroring Go `big.Int.BitLen`:
the number of its binary digits, with `natBitLen 0 = 0`. -/
def natBitLen (n : ℕ) : ℕ := bitLenAux n n

/-- Binary length of an integer, mirroring Go `big.Int.BitLen`, which
is the bit length of the absolute value. -/
def intBitLen (x : ℤ) : ℕ := natBitLen x.natAbs

/-- Embedding of `cmpInField` (`cmp/bounded.csgo`): compares the raw
representatives `a` and `b` of two field elements in a field of order
`order`.  `biggestPositiveNum` is `order >> 1`; the raw comparison is
negated exactly when `a.Cmp(half) * b.Cmp(half) == -1`. -/
def cmpInField (a b order : ℕ) : ℤ :=
  let biggestPositiveNum := order >>> 1
  if natCmp a biggestPositiveNum * natCmp b biggestPositiveNum = -1 then
    -(natCmp a b)
  else
    natCmp a b

/-- The canonical signed representative of a raw field value `v` in a
field of order `P`: `v` itself if `v ≤ (P-1)/2`, else `v - P`. -/
def signedRep (v P : ℕ) : ℤ :=
  if v ≤ (P - 1) / 2 then (v : ℤ) else (v : ℤ) - (P : ℤ)

/-- Transcription of the spec sentence for `cmpInField` ("if exactly
one of `a,b` exceeds `half`, invert the raw-integer comparison result;
otherwise use the raw-integer comparison directly"), used to compare
the claimed behaviour with the code's actual behaviour. -/
def cmpInFieldSpec (a b order : ℕ) : ℤ :=
  if decide (order >>> 1 < a) ≠ decide (order >>> 1 < b) then
    -(natCmp a b)
  else
    natCmp a b

/-! ## Constraint-system embedding -/

/-- A single constraint emitted at circuit-build time:
`eq x y` is `AssertIsEqual(x, y)`, and `bits n x` is the external
bit-decomposition gadget `AssertBitLen(n, x)`, whose interface
semantics (spec §6) is that `x` decomposes into exactly `n` boolean
digits, i.e. some natural number `m < 2^n` reduces to `x` mod `P`. -/
inductive Constraint (P : ℕ) where
  | eq : ZMod P → ZMod P → Constraint P
  | bits : ℕ → ZMod P → Constraint P

/-- Whether a single constraint is satisfied (for `bits`, whether a
witness decomposition exists). -/
def Constraint.check {P : ℕ} : Constraint P → Bool
  | .eq a b => decide (a = b)
  | .bits n x => (List.range (2 ^ n)).any fun m => decide ((m : ZMod P) = x)

/-- All constraints in a list are satisfied. -/
def constraintsHold {P : ℕ} (cs : List (Constraint P)) : Prop :=
  cs.all Constraint.check = true

instance {P : ℕ} (cs : List (Constraint P)) : Decidable (constraintsHold cs) :=
  inferInstanceAs (Decidable (cs.all Constraint.check = true))

/-! ## Selector (`transpiled/selector/multiplexer.go`) -/

/-- Hint `muxIndicators`: given the selector value as single input,
writes `1` into slot `i` exactly when `sel == i`, and `0` otherwise.
The Go function ignores the field order (its first parameter is `_`)
and always returns a nil error, modelled as the `Option String`
component being `none`. -/
def muxIndicators (_fieldOrder : ℕ) (inputs : List ℕ) (nbOutputs : ℕ) :
    List ℕ × Option String :=
  let sel := inputs.getD 0 0
  (((List.range nbOutputs).map fun i => if sel = i then 1 else 0), none)

/-- Hint `mapIndicators`: the query key is the last input; slot `i`
gets `1` exactly when `key == inputs[i]`.  Ignores the field order and
always returns a nil error. -/
def mapIndicators (_fieldOrder : ℕ) (inputs : List ℕ) (nbOutputs : ℕ) :
    List ℕ × Option String :=
  let key := inputs.getD (inputs.length - 1) 0
  (((List.range nbOutputs).map fun i => if key = inputs.getD i 0 then 1 else 0), none)

/-- gnark's `api.Select(sel, i1, i2)`: returns `i1` when `sel = 1` and
`i2` when `sel = 0`, computed as the linear form `sel*(i1-i2) + i2`. -/
def apiSelect (P : ℕ) (sel i1 i2 : ZMod P) : ZMod P :=
  sel * (i1 - i2) + i2

/-- The constraint-emitting loop of `generateSelector`, as a function
of the indicator variables (which the source obtains as unconstrained
hint outputs).  For each `i` it asserts
`indicators[i] * (sel - i) == 0` (mux) or
`indicators[i] * (sel - keys[i]) == 0` (map), accumulates the sum of
the indicators and the output `out = sum indicators[i]*values[i]`, and
finally asserts `indicatorsSum == 1`.  Returns `(out, constraints)`. -/
def selectorCircuit (P : ℕ) (wantMux : Bool) (sel : ZMod P)
    (keys values indicators : List (ZMod P)) : ZMod P × List (Constraint P) :=
  let n := indicators.length
  let zeroChecks := (List.range n).map fun i =>
    Constraint.eq
      (indicators.getD i 0 * (sel - (if wantMux then (i : ZMod P) else keys.getD i 0)))
      0
  let indicatorsSum := ((List.range n).map fun i => indicators.getD i 0).sum
  let out := ((List.range n).map fun i => indicators.getD i 0 * values.getD i 0).sum
  (out, zeroChecks ++ [Constraint.eq indicatorsSum 1])

/-- Embedding of `generateSelector`: with `wantMux` and exactly two
values it collapses to a single `api.Select` and returns nil
indicators and no constraints; otherwise it allocates the indicators
through the corresponding hint (evaluated on the concrete values, as
witness generation does) and emits the constraints of
`selectorCircuit`.  Returns `((out, indicators), constraints)`. -/
def generateSelector (P : ℕ) (wantMux : Bool) (sel : ZMod P)
    (keys values : List (ZMod P)) :
    (ZMod P × List (ZMod P)) × List (Constraint P) :=
  if wantMux ∧ values.length = 2 then
    ((apiSelect P sel (values.getD 1 0) (values.getD 0 0), []), [])
  else
    let indicators : List (ZMod P) :=
      if wantMux then
        (muxIndicators P [sel.val] values.length).1.map (Nat.cast : ℕ → ZMod P)
      else
        (mapIndicators P ((keys.map ZMod.val) ++ [sel.val]) keys.length).1.map
          (Nat.cast : ℕ → ZMod P)
    let oc := selectorCircuit P wantMux sel keys values indicators
    ((oc.1, indicators), oc.2)

/-- Embedding of `Mux(sel, inputs...)`. -/
def Mux (P : ℕ) (sel : ZMod P) (inputs : List (ZMod P)) :
    (ZMod P × List (ZMod P)) × List (Constraint P) :=
  generateSelector P true sel [] inputs

/-- Embedding of `Map(queryKey, keys, values)`.  The Go function
panics, before allocating any hint or emitting any constraint, when
`len(keys) != len(values)`; the panic is modelled as `none`. -/
def Map (P : ℕ) (queryKey : ZMod P) (keys values : List (ZMod P)) :
    Option ((ZMod P × List (ZMod P)) × List (Constraint P)) :=
  if keys.length ≠ values.length then none
  else some (generateSelector P false queryKey keys values)

/-! ## Bounded comparator (`cmp/bounded.csgo`) -/

/-- The comparator configuration: only the derived bit length. -/
structure BoundedComparator where
  absDiffUppBitLen : ℕ
deriving DecidableEq

/-- Embedding of `NewBoundedComparator(absDiffUpp, allowNonDeterminism)`
over a field of order `P`.  Each `panic` is modelled as `none`; the
comparisons mirror the Go `big.Int.Cmp` tests. -/
def NewBoundedComparator (P absDiffUpp : ℤ) (allowNonDeterminism : Bool) :
    Option BoundedComparator :=
  if intCmp absDiffUpp 0 ≠ 1 ∨ intCmp absDiffUpp P ≠ -1 then
    none
  else if intBitLen (P - absDiffUpp - 1) ≤ intBitLen absDiffUpp then
    none
  else if ¬allowNonDeterminism ∧ intCmp P (2 ^ (intBitLen absDiffUpp + 1) + 1) = -1 then
    none
  else
    some ⟨intBitLen absDiffUpp⟩

/-- Embedding of `convert.AssertBitLen(bitLen, x)` as the single
external bit-decomposition constraint. -/
def AssertBitLen (P : ℕ) (bitLen : ℕ) (x : ZMod P) : List (Constraint P) :=
  [Constraint.bits bitLen x]

/-- `bc.assertIsNonNegative(a)`: one bit decomposition of length
`bc.absDiffUppBitLen`. -/
def BoundedComparator.assertIsNonNegative (P : ℕ) (bc : BoundedComparator)
    (a : ZMod P) : List (Constraint P) :=
  AssertBitLen P bc.absDiffUppBitLen a

/-- `bc.AssertIsLessEq(a, b)`: asserts `b - a` is non-negative. -/
def BoundedComparator.AssertIsLessEq (P : ℕ) (bc : BoundedComparator)
    (a b : ZMod P) : List (Constraint P) :=
  bc.assertIsNonNegative P (b - a)

/-- `bc.AssertIsLess(a, b)`: `AssertIsLessEq(a, b - 1)`. -/
def BoundedComparator.AssertIsLess (P : ℕ) (bc : BoundedComparator)
    (a b : ZMod P) : List (Constraint P) :=
  bc.AssertIsLessEq P a (b - 1)

/-- Hint `isLessOutputHint`: `1` when `cmpInField(a, b, P) == -1`,
else `0`; always a nil error. -/
def isLessOutputHint (fieldOrder : ℕ) (inputs : List ℕ) :
    List ℕ × Option String :=
  let a := inputs.getD 0 0
  let b := inputs.getD 1 0
  (if cmpInField a b fieldOrder = -1 then [1] else [0], none)

/-- Hint `minOutputHint`: `a` when `cmpInField(a, b, P) == -1`, else
`b`; always a nil error. -/
def minOutputHint (fieldOrder : ℕ) (inputs : List ℕ) :
    List ℕ × Option String :=
  let a := inputs.getD 0 0
  let b := inputs.getD 1 0
  (if cmpInField a b fieldOrder = -1 then [a] else [b], none)

/-- `bc.IsLess(a, b)`: obtains the result bit `res` from
`isLessOutputHint`, multiplexes between `a - b` (for `res = 0`) and
`b - a - 1` (for `res = 1`) and asserts the selection non-negative.
Returns the bit together with the emitted constraints. -/
def BoundedComparator.IsLess (P : ℕ) (bc : BoundedComparator)
    (a b : ZMod P) : ZMod P × List (Constraint P) :=
  let res : ZMod P := (((isLessOutputHint P [a.val, b.val]).1.getD 0 0 : ℕ) : ZMod P)
  let m := Mux P res [a - b, b - a - 1]
  (res, m.2 ++ bc.assertIsNonNegative P m.1.1)

/-- `bc.IsLessEq(a, b)`: `IsLess(a, b + 1)`. -/
def BoundedComparator.IsLessEq (P : ℕ) (bc : BoundedComparator)
    (a b : ZMod P) : ZMod P × List (Constraint P) :=
  bc.IsLess P a (b + 1)

/-- `bc.Min(a, b)`: obtains `min` from `minOutputHint`, then asserts
`(a - min) * (b - min) == 0` and that `(a - min) + (b - min)` is
non-negative. -/
def BoundedComparator.Min (P : ℕ) (bc : BoundedComparator)
    (a b : ZMod P) : ZMod P × List (Constraint P) :=
  let m : ZMod P := (((minOutputHint P [a.val, b.val]).1.getD 0 0 : ℕ) : ZMod P)
  let aDiff := a - m
  let bDiff := b - m
  (m, [Constraint.eq (aDiff * bDiff) 0] ++ bc.assertIsNonNegative P (aDiff + bDiff))

/-! ## Basic facts about the three-way comparisons -/

lemma cmpInField_eq (a b order : ℕ) :
    cmpInField a b order =
      if natCmp a (order >>> 1) * natCmp b (order >>> 1) = -1 then -(natCmp a b)
      else natCmp a b := rfl

lemma natCmp_self (a : ℕ) : natCmp a a = 0 := by
  unfold natCmp; simp

lemma natCmp_swap (a b : ℕ) : natCmp a b = -(natCmp b a) := by
  unfold natCmp; split_ifs <;> omega

lemma natCmp_cases (a b : ℕ) : natCmp a b = -1 ∨ natCmp a b = 0 ∨ natCmp a b = 1 := by
  unfold natCmp; split_ifs <;> simp

lemma natCmp_mul_self_ne_neg_one (a h : ℕ) : natCmp a h * natCmp a h ≠ -1 := by
  rcases natCmp_cases a h with h1 | h1 | h1 <;> rw [h1] <;> decide

/-- Claim C10: `cmpInField` is antisymmetric (`cmp(a,b) = -cmp(b,a)`)
and reflexive (`cmp(a,a) = 0`) for every field order `P > 0` and all
raw representatives `a, b` in `[0, P)`. -/
theorem cmpInField_antisymm_refl (P a b : ℕ) (hP : 0 < P) (ha : a < P) (hb : b < P) :
    cmpInField a b P = -(cmpInField b a P) ∧ cmpInField a a P = 0 := by
  constructor
  · have hcomm : natCmp a (P >>> 1) * natCmp b (P >>> 1) =
        natCmp b (P >>> 1) * natCmp a (P >>> 1) := mul_comm _ _
    rw [cmpInField_eq, cmpInField_eq, hcomm]
    by_cases hc : natCmp b (P >>> 1) * natCmp a (P >>> 1) = -1
    · rw [if_pos hc, if_pos hc, natCmp_swap a b]
    · rw [if_neg hc, if_neg hc, natCmp_swap a b]
  · rw [cmpInField_eq, if_neg (natCmp_mul_self_ne_neg_one a (P >>> 1)), natCmp_self]

/-- Claim C10 witness: the theorem applied at `P = 13`, `a = 5`, `b = 7`. -/
theorem cmpInField_antisymm_refl_witness :
    cmpInField 5 7 13 = -(cmpInField 7 5 13) ∧ cmpInField 5 5 13 = 0 :=
  cmpInField_antisymm_refl 13 5 7 (by decide) (by decide) (by decide)

/-- Claim C2 counterexample: at `P = 13`, `a = 6`, `b = 7` exactly one
of `a, b` exceeds `half = P >> 1 = 6` (namely `b`), so the claim
demands the negation of the raw comparison (`-(-1) = 1`, which is also
the signed-representative comparison), yet `cmpInField` returns the
raw comparison `-1`: the product test `a.Cmp(half)*b.Cmp(half) == -1`
does not fire when one operand equals `half`. -/
theorem cmpInField_boundary_counterexample :
    ((6 : ℕ) ≤ 13 >>> 1 ∧ 13 >>> 1 < (7 : ℕ)) ∧
    natCmp 6 7 = -1 ∧
    cmpInField 6 7 13 = -1 ∧
    cmpInField 6 7 13 ≠ -(natCmp 6 7) ∧
    cmpInFieldSpec 6 7 13 = 1 ∧
    intCmp (signedRep 6 13) (signedRep 7 13) = 1 := by decide

/-- Claim C1 (code bug evaluation): with field order `P = 13` and
bound `absDiffUpp = 2` the comparator is validly constructed, the
operands `a = 5`, `b = 6` have signed values `5` and `6` with
`|5 - 6| = 1 ≤ 2`, yet `IsLessEq(5, 6)` returns `0` instead of `1`
and its emitted constraints are unsatisfiable: `IsLessEq` reduces
`a ≤ b` to `IsLess(a, b+1)`, and `b + 1` wraps past the biggest
positive representative `(P-1)/2 = 6`. -/
theorem isLessEq_bug_eval :
    NewBoundedComparator 13 2 false = some ⟨2⟩ ∧
    signedRep 5 13 = 5 ∧ signedRep 6 13 = 6 ∧
    (BoundedComparator.IsLessEq 13 ⟨2⟩ 5 6).1 = 0 ∧
    ¬ constraintsHold (BoundedComparator.IsLessEq 13 ⟨2⟩ 5 6).2 := by decide

/-- Claim C5: `Map` fails (the Go function panics, modelled as `none`,
with no hint allocated and no constraint emitted) exactly when the
`keys` and `values` lists have different lengths. -/
theorem map_length_mismatch (P : ℕ) (queryKey : ZMod P) (keys values : List (ZMod P)) :
    Map P queryKey keys values = none ↔ keys.length ≠ values.length := by
  unfold Map; split_ifs with h <;> simp [h]

/-- Claim C5 witness: the theorem applied to a length-2 key list and a
length-1 value list. -/
theorem map_length_mismatch_witness :
    Map 13 7 [(1 : ZMod 13), 2] [(3 : ZMod 13)] = none :=
  (map_length_mismatch 13 7 [(1 : ZMod 13), 2] [(3 : ZMod 13)]).mpr (by decide)

/-- Claim C6 counterexample: `Mux` with exactly one input does not
return nil indicators: the `== 2` special case does not catch a single
input, which falls through to the generic path and yields a singleton
indicator vector. -/
theorem mux_single_input_counterexample :
    (Mux 13 0 [(7 : ZMod 13)]).1.2 = [(1 : ZMod 13)] ∧
    (Mux 13 0 [(7 : ZMod 13)]).1.2 ≠ [] := by decide

/-- Claim C6 (amended): with exactly two inputs, `Mux` emits no
constraints and no indicators and returns the single conditional
select `sel*(i1-i2)+i2`, which equals `inputs[sel]` for `sel ∈ {0,1}`;
with exactly one input a singleton indicator vector (not nil) is
returned. -/
theorem mux_two_inputs_select (P : ℕ) (s v0 v1 v : ZMod P) :
    (Mux P s [v0, v1]).1.1 = apiSelect P s v1 v0 ∧
    (Mux P s [v0, v1]).1.2 = [] ∧
    (Mux P s [v0, v1]).2 = [] ∧
    (Mux P 0 [v0, v1]).1.1 = v0 ∧
    (Mux P 1 [v0, v1]).1.1 = v1 ∧
    (Mux P s [v]).1.2.length = 1 := by
  refine ⟨rfl, rfl, rfl, ?_, ?_, ?_⟩
  · show apiSelect P 0 v1 v0 = v0
    simp [apiSelect]
  · show apiSelect P 1 v1 v0 = v1
    simp [apiSelect]
  · simp [Mux, generateSelector, muxIndicators, selectorCircuit]

/-! ## Constructor validation -/

lemma intCmp_ne_one_iff (a b : ℤ) : intCmp a b ≠ 1 ↔ a ≤ b := by
  unfold intCmp; split_ifs with h1 h2 <;> simp <;> omega

lemma intCmp_ne_neg_one_iff (a b : ℤ) : intCmp a b ≠ -1 ↔ b ≤ a := by
  unfold intCmp; split_ifs with h1 h2 <;> simp <;> omega

lemma intCmp_eq_neg_one_iff (a b : ℤ) : intCmp a b = -1 ↔ a < b := by
  unfold intCmp; split_ifs with h1 h2 <;> simp <;> omega

/-- Claim C4: `NewBoundedComparator(absDiffUpp, allowNonDeterminism)`
panics (returns `none`) exactly when `absDiffUpp ≤ 0`, or
`absDiffUpp ≥ P`, or `bitlength(P - absDiffUpp - 1) ≤
bitlength(absDiffUpp)`, or — only when `allowNonDeterminism` is false
— `P < 2^(bitlength(absDiffUpp)+1) + 1`; otherwise it returns a
comparator whose `absDiffUppBitLen` is `bitlength(absDiffUpp)`. -/
theorem newBoundedComparator_validation (P D : ℤ) (allow : Bool) :
    (NewBoundedComparator P D allow = none ↔
      D ≤ 0 ∨ P ≤ D ∨ intBitLen (P - D - 1) ≤ intBitLen D ∨
        (allow = false ∧ P < 2 ^ (intBitLen D + 1) + 1)) ∧
    (∀ bc, NewBoundedComparator P D allow = some bc →
      bc.absDiffUppBitLen = intBitLen D) := by
  constructor
  · unfold NewBoundedComparator
    split_ifs with h1 h2 h3 <;>
      simp only [intCmp_ne_one_iff, intCmp_ne_neg_one_iff, intCmp_eq_neg_one_iff,
        Bool.not_eq_true, not_or, not_and, not_lt, not_le] at * <;>
      simp <;> tauto
  · intro bc h
    unfold NewBoundedComparator at h
    split_ifs at h
    injection h with h
    rw [← h]

/-- Claim C4 witness: the theorem applied at `P = 13`, `D = 2`,
`allowNonDeterminism = false`, where construction succeeds with
`absDiffUppBitLen = 2`. -/
theorem newBoundedComparator_validation_witness :
    (⟨2⟩ : BoundedComparator).absDiffUppBitLen = intBitLen 2 :=
  (newBoundedComparator_validation 13 2 false).2 ⟨2⟩ (by decide)

/-! ## Hint correctness and purity -/

lemma getD_map_range {α : Type} (f : ℕ → α) (d : α) {n i : ℕ} (h : i < n) :
    ((List.range n).map f).getD i d = f i := by
  have hlen : i < ((List.range n).map f).length := by simpa
  rw [List.getD_eq_getElem _ _ hlen]
  simp

/-- Claim C7: `muxIndicators` writes `1` into slot `i` exactly when
`sel = i`; `mapIndicators`, invoked as the circuit invokes it (the
inputs are the keys followed by the query key and one output slot per
key), writes `1` into slot `i` exactly when `keys[i]` equals the query
key; both hints produce exactly the requested number of outputs, every
one of them `0` or `1`. -/
theorem indicator_hints_correct :
    (∀ (P sel n i : ℕ), i < n →
        (muxIndicators P [sel] n).1.getD i 0 = if sel = i then 1 else 0) ∧
    (∀ P sel n : ℕ, (muxIndicators P [sel] n).1.length = n ∧
        ∀ x ∈ (muxIndicators P [sel] n).1, x = 0 ∨ x = 1) ∧
    (∀ (P : ℕ) (ks : List ℕ) (q i : ℕ), i < ks.length →
        (mapIndicators P (ks ++ [q]) ks.length).1.getD i 0 =
          if ks.getD i 0 = q then 1 else 0) ∧
    (∀ (P : ℕ) (ks : List ℕ) (q : ℕ),
        (mapIndicators P (ks ++ [q]) ks.length).1.length = ks.length ∧
        ∀ x ∈ (mapIndicators P (ks ++ [q]) ks.length).1, x = 0 ∨ x = 1) := by
  refine ⟨?_, ?_, ?_, ?_⟩
  · intro P sel n i hi
    unfold muxIndicators
    rw [getD_map_range _ _ hi]
    rfl
  · intro P sel n
    constructor
    · simp [muxIndicators]
    · intro x hx
      simp only [muxIndicators, List.mem_map] at hx
      rcases hx with ⟨i, -, rfl⟩
      split <;> simp
  · intro P ks q i hi
    unfold mapIndicators
    rw [getD_map_range _ _ hi]
    have hkey : (ks ++ [q]).getD ((ks ++ [q]).length - 1) 0 = q := by
      simp [List.getD_append_right]
    have hin : (ks ++ [q]).getD i 0 = ks.getD i 0 := List.getD_append _ _ _ _ hi
    rw [hkey, hin]
    by_cases h : ks.getD i 0 = q <;> simp [h, Eq.comm]
  · intro P ks q
    constructor
    · simp [mapIndicators]
    · intro x hx
      simp only [mapIndicators, List.mem_map] at hx
      rcases hx with ⟨i, -, rfl⟩
      split <;> simp

/-- Claim C7 witness: the theorem applied at `sel = 1`, `n = 3`,
`i = 1` and at keys `[3, 7, 9]` with query key `7`, `i = 1`. -/
theorem indicator_hints_correct_witness :
    (muxIndicators 13 [1] 3).1.getD 1 0 = 1 ∧
    (mapIndicators 13 ([3, 7, 9] ++ [7]) 3).1.getD 1 0 = 1 := by
  constructor
  · exact indicator_hints_correct.1 13 1 3 1 (by decide)
  · exact indicator_hints_correct.2.2.1 13 [3, 7, 9] 7 1 (by decide)

/-- Claim C8: the four registered hint functions are pure functions of
the field order and their concrete inputs: they always return a nil
error, equal arguments give equal results, and the two selector hints
do not depend on the field order at all (the Go functions bind it to
`_`). -/
theorem hints_pure_deterministic :
    (∀ (P : ℕ) (ins : List ℕ) (n : ℕ), (muxIndicators P ins n).2 = none) ∧
    (∀ (P : ℕ) (ins : List ℕ) (n : ℕ), (mapIndicators P ins n).2 = none) ∧
    (∀ (P : ℕ) (ins : List ℕ), (minOutputHint P ins).2 = none) ∧
    (∀ (P : ℕ) (ins : List ℕ), (isLessOutputHint P ins).2 = none) ∧
    (∀ (P Q : ℕ) (ins jns : List ℕ) (n m : ℕ), P = Q → ins = jns → n = m →
        muxIndicators P ins n = muxIndicators Q jns m) ∧
    (∀ (P Q : ℕ) (ins jns : List ℕ) (n m : ℕ), P = Q → ins = jns → n = m →
        mapIndicators P ins n = mapIndicators Q jns m) ∧
    (∀ (P Q : ℕ) (ins jns : List ℕ), P = Q → ins = jns →
        minOutputHint P ins = minOutputHint Q jns) ∧
    (∀ (P Q : ℕ) (ins jns : List ℕ), P = Q → ins = jns →
        isLessOutputHint P ins = isLessOutputHint Q jns) ∧
    (∀ (P Q : ℕ) (ins : List ℕ) (n : ℕ),
        muxIndicators P ins n = muxIndicators Q ins n) ∧
    (∀ (P Q : ℕ) (ins : List ℕ) (n : ℕ),
        mapIndicators P ins n = mapIndicators Q ins n) := by
  refine ⟨fun _ _ _ => rfl, fun _ _ _ => rfl, fun _ _ => rfl, fun _ _ => rfl,
    ?_, ?_, ?_, ?_, fun _ _ _ _ => rfl, fun _ _ _ _ => rfl⟩
  · rintro P Q ins jns n m rfl rfl rfl; rfl
  · rintro P Q ins jns n m rfl rfl rfl; rfl
  · rintro P Q ins jns rfl rfl; rfl
  · rintro P Q ins jns rfl rfl; rfl

/-- Claim C8 witness: determinism of `minOutputHint` applied at field
order `13` and inputs `[5, 6]`. -/
theorem hints_pure_deterministic_witness :
    minOutputHint 13 [5, 6] = minOutputHint 13 [5, 6] :=
  hints_pure_deterministic.2.2.2.2.2.2.1 13 13 [5, 6] [5, 6] rfl rfl

/-! ## Comparator immutability -/

/-- Claim C9: a successfully constructed comparator satisfies
`absDiffUppBitLen = bitlength(absDiffUpp)`, and every comparator
operation only appends to the shared constraint list (the prior
constraints are preserved unchanged); the comparator itself is a plain
value that no operation modifies (the embedding of each operation is a
pure function of the comparator and its arguments). -/
theorem comparator_immutable :
    (∀ (P D : ℤ) (allow : Bool) (bc : BoundedComparator),
        NewBoundedComparator P D allow = some bc →
          bc.absDiffUppBitLen = intBitLen D) ∧
    (∀ (P : ℕ) (bc : BoundedComparator) (a b : ZMod P) (s : List (Constraint P)),
        (s ++ bc.AssertIsLessEq P a b).take s.length = s ∧
        (s ++ bc.AssertIsLess P a b).take s.length = s ∧
        (s ++ (bc.IsLess P a b).2).take s.length = s ∧
        (s ++ (bc.IsLessEq P a b).2).take s.length = s ∧
        (s ++ (bc.Min P a b).2).take s.length = s) := by
  constructor
  · intro P D allow bc h
    unfold NewBoundedComparator at h
    split_ifs at h
    injection h with h
    rw [← h]
  · intro P bc a b s
    refine ⟨?_, ?_, ?_, ?_, ?_⟩ <;> exact List.take_left _ _

/-- Claim C9 witness: the construction invariant applied at `P = 13`,
`D = 3`, where `bitlength(3) = 2`. -/
theorem comparator_immutable_witness :
    (⟨2⟩ : BoundedComparator).absDiffUppBitLen = intBitLen 3 :=
  comparator_immutable.1 13 3 false ⟨2⟩ (by decide)

/-! ## Selector one-hot soundness -/

lemma selectorCircuit_def {P : ℕ} (wantMux : Bool) (sel : ZMod P)
    (keys values indicators : List (ZMod P)) :
    selectorCircuit P wantMux sel keys values indicators =
      (((List.range indicators.length).map fun i =>
          indicators.getD i 0 * values.getD i 0).sum,
       ((List.range indicators.length).map fun i =>
          Constraint.eq (indicators.getD i 0 *
            (sel - (if wantMux then (i : ZMod P) else keys.getD i 0))) 0)
         ++ [Constraint.eq
              ((List.range indicators.length).map fun i => indicators.getD i 0).sum 1]) :=
  rfl

lemma checkEq_iff {P : ℕ} (x y : ZMod P) : (Constraint.eq x y).check = true ↔ x = y := by
  simp [Constraint.check]

lemma constraintsHold_iff {P : ℕ} (cs : List (Constraint P)) :
    constraintsHold cs ↔ ∀ c ∈ cs, c.check = true := by
  simp [constraintsHold, List.all_eq_true]

lemma sum_map_range_eq_single {M : Type} [AddCommMonoid M] (f : ℕ → M) (n k : ℕ)
    (hk : k < n) (h0 : ∀ j < n, j ≠ k → f j = 0) :
    ((List.range n).map f).sum = f k := by
  induction n with
  | zero => omega
  | succ n ih =>
    rw [List.range_succ, List.map_append, List.sum_append]
    simp only [List.map_cons, List.map_nil, List.sum_cons, List.sum_nil, add_zero]
    rcases Nat.lt_succ_iff_lt_or_eq.mp hk with h | rfl
    · rw [ih h fun j hj hjk => h0 j (Nat.lt_succ_of_lt hj) hjk,
        h0 n (Nat.lt_succ_self n) (by omega), add_zero]
    · rw [List.sum_eq_zero, zero_add]
      intro x hx
      simp only [List.mem_map, List.mem_range] at hx
      rcases hx with ⟨j, hj, rfl⟩
      exact h0 j (Nat.lt_succ_of_lt hj) (by omega)

lemma nodup_getD_ne {α : Type} (l : List α) (hl : l.Nodup) (d : α) {i j : ℕ}
    (hi : i < l.length) (hj : j < l.length) (hij : i ≠ j) : l.getD i d ≠ l.getD j d := by
  rw [List.getD_eq_getElem _ _ hi, List.getD_eq_getElem _ _ hj]
  intro h
  exact hij (List.Nodup.getElem_inj_iff hl |>.mp h)

/-- Soundness of the constraints emitted by the `generateSelector`
loop, for an arbitrary assignment to the indicator variables: if the
candidate at position `k` matches `sel` and every other candidate does
not, then any indicator assignment satisfying all emitted constraints
is the one-hot vector at `k` and the output equals `values[k]`. -/
lemma selectorCircuit_sound {P : ℕ} [Fact (Nat.Prime P)] (wantMux : Bool)
    (sel : ZMod P) (keys values indicators : List (ZMod P)) (k : ℕ)
    (hk : k < indicators.length)
    (hsel : (if wantMux then (k : ZMod P) else keys.getD k 0) = sel)
    (hothers : ∀ j < indicators.length, j ≠ k →
        (if wantMux then (j : ZMod P) else keys.getD j 0) ≠ sel)
    (hold : constraintsHold (selectorCircuit P wantMux sel keys values indicators).2) :
    indicators.getD k 0 = 1 ∧
    (∀ j < indicators.length, j ≠ k → indicators.getD j 0 = 0) ∧
    (selectorCircuit P wantMux sel keys values indicators).1 = values.getD k 0 := by
  have hold' := (constraintsHold_iff _).mp hold
  rw [selectorCircuit_def] at hold'
  have hzero : ∀ j, j < indicators.length →
      indicators.getD j 0 * (sel - (if wantMux then (j : ZMod P) else keys.getD j 0)) = 0 := by
    intro j hj
    refine (checkEq_iff _ _).mp (hold' _ (List.mem_append_left _ ?_))
    simp only [List.mem_map, List.mem_range]
    exact ⟨j, hj, rfl⟩
  have hsum : ((List.range indicators.length).map fun i => indicators.getD i 0).sum = 1 :=
    (checkEq_iff _ _).mp (hold' _ (List.mem_append_right _ (List.mem_singleton_self _)))
  have hz : ∀ j < indicators.length, j ≠ k → indicators.getD j 0 = 0 := by
    intro j hj hjk
    rcases mul_eq_zero.mp (hzero j hj) with h | h
    · exact h
    · exact absurd ((sub_eq_zero.mp h).symm) (hothers j hj hjk)
  have hk1 : indicators.getD k 0 = 1 := by
    rw [sum_map_range_eq_single _ _ k hk hz] at hsum
    exact hsum
  refine ⟨hk1, hz, ?_⟩
  rw [selectorCircuit_def]
  show ((List.range indicators.length).map fun i =>
      indicators.getD i 0 * values.getD i 0).sum = values.getD k 0
  rw [sum_map_range_eq_single _ _ k hk fun j hj hjk => by rw [hz j hj hjk, zero_mul],
    hk1, one_mul]

/-- Claim C3: over a prime field, for `Map` with pairwise-distinct
keys and query key `keys[k]`, every assignment to the indicator
variables satisfying the emitted constraints
(`indicator[i]*(queryKey - keys[i]) = 0` for all `i` and
`sum indicator = 1`) is the one-hot vector at `k`, and the output
`sum indicator[i]*values[i]` equals `values[k]`; likewise for `Mux`
with `n ≥ 3` inputs (with `n ≤ P`, so that the embedded indices
`0..n-1` are pairwise distinct field elements, the analogue of the
distinct-keys hypothesis) and `sel = k ∈ [0, n)`. -/
theorem selector_one_hot_sound (P : ℕ) (hp : Nat.Prime P) :
    (∀ (keys values indicators : List (ZMod P)) (k : ℕ),
        keys.Nodup → k < keys.length → values.length = keys.length →
        indicators.length = keys.length →
        constraintsHold (selectorCircuit P false (keys.getD k 0) keys values indicators).2 →
        indicators.getD k 0 = 1 ∧
        (∀ j < keys.length, j ≠ k → indicators.getD j 0 = 0) ∧
        (selectorCircuit P false (keys.getD k 0) keys values indicators).1 =
          values.getD k 0) ∧
    (∀ (values indicators : List (ZMod P)) (k : ℕ),
        3 ≤ values.length → values.length ≤ P → k < values.length →
        indicators.length = values.length →
        constraintsHold (selectorCircuit P true ((k : ℕ) : ZMod P) [] values indicators).2 →
        indicators.getD k 0 = 1 ∧
        (∀ j < values.length, j ≠ k → indicators.getD j 0 = 0) ∧
        (selectorCircuit P true ((k : ℕ) : ZMod P) [] values indicators).1 =
          values.getD k 0) := by
  haveI : Fact (Nat.Prime P) := ⟨hp⟩
  haveI : NeZero P := ⟨by have := hp.two_le; omega⟩
  constructor
  · intro keys values indicators k hnd hk hvlen hilen hold
    have hoth : ∀ j, j < indicators.length → j ≠ k → keys.getD j 0 ≠ keys.getD k 0 :=
      fun j hj hjk => nodup_getD_ne keys hnd 0 (by omega) hk hjk
    have hres := selectorCircuit_sound false (keys.getD k 0) keys values indicators k
      (by omega) rfl hoth hold
    exact ⟨hres.1, fun j hj hjk => hres.2.1 j (by omega) hjk, hres.2.2⟩
  · intro values indicators k h3 hP hk hilen hold
    have hoth : ∀ j, j < indicators.length → j ≠ k →
        ((j : ℕ) : ZMod P) ≠ ((k : ℕ) : ZMod P) := by
      intro j hj hjk hcast
      have hj' : j < P := by omega
      have hk' : k < P := by omega
      have hv := congrArg ZMod.val hcast
      rw [ZMod.val_cast_of_lt hj', ZMod.val_cast_of_lt hk'] at hv
      exact hjk hv
    have hres := selectorCircuit_sound true ((k : ℕ) : ZMod P) [] values indicators k
      (by omega) rfl hoth hold
    exact ⟨hres.1, fun j hj hjk => hres.2.1 j (by omega) hjk, hres.2.2⟩

/-- Claim C3 witness: the `Map` part applied to the spec's concrete
scenario over `ZMod 13` (keys `[3,7,9]`, values `[4,5,12]`, query key
`7 = keys[1]`, honest indicators `[0,1,0]`): the output is
`values[1] = 5`. -/
theorem selector_one_hot_sound_witness :
    (selectorCircuit 13 false (([3, 7, 9] : List (ZMod 13)).getD 1 0)
      [3, 7, 9] [4, 5, 12] [0, 1, 0]).1 = ([4, 5, 12] : List (ZMod 13)).getD 1 0 :=
  ((selector_one_hot_sound 13 (by norm_num)).1 [3, 7, 9] [4, 5, 12] [0, 1, 0] 1
    (by decide) (by decide) (by decide) (by decide) (by decide)).2.2

/-! ## Corrected characterisation of cmpInField -/

lemma natCmp_mul_eq_neg_one_iff (a b h : ℕ) :
    natCmp a h * natCmp b h = -1 ↔ (a < h ∧ h < b) ∨ (b < h ∧ h < a) := by
  unfold natCmp
  split_ifs <;> norm_num <;> omega

/-- Claim C2 (amended): for an odd field order `P` and raw
representatives `a, b` in `[0, P)`, `cmpInField` always returns `-1`,
`0` or `1`; it returns the negation of the raw comparison exactly when
one operand is strictly below `half = P >> 1` and the other strictly
above (not when one operand equals `half`); and away from that
boundary anomaly — excluding the case that one operand equals `half`
while the other exceeds it — it agrees with comparing the canonical
signed representatives of `a` and `b`. -/
theorem cmpInField_amended (P a b : ℕ) (hodd : P % 2 = 1) (ha : a < P) (hb : b < P)
    (hab : ¬(a = P >>> 1 ∧ P >>> 1 < b)) (hba : ¬(b = P >>> 1 ∧ P >>> 1 < a)) :
    (cmpInField a b P = -1 ∨ cmpInField a b P = 0 ∨ cmpInField a b P = 1) ∧
    cmpInField a b P =
      (if (a < P >>> 1 ∧ P >>> 1 < b) ∨ (b < P >>> 1 ∧ P >>> 1 < a)
       then -(natCmp a b) else natCmp a b) ∧
    cmpInField a b P = intCmp (signedRep a P) (signedRep b P) := by
  have hh : P >>> 1 = P / 2 := by
    rw [Nat.shiftRight_eq_div_pow, pow_one]
  rw [hh] at hab hba
  have h2 : cmpInField a b P =
      if (a < P / 2 ∧ P / 2 < b) ∨ (b < P / 2 ∧ P / 2 < a)
      then -(natCmp a b) else natCmp a b := by
    rw [cmpInField_eq, hh]
    by_cases hc : (a < P / 2 ∧ P / 2 < b) ∨ (b < P / 2 ∧ P / 2 < a)
    · rw [if_pos ((natCmp_mul_eq_neg_one_iff a b (P / 2)).mpr hc), if_pos hc]
    · rw [if_neg fun hx => hc ((natCmp_mul_eq_neg_one_iff a b (P / 2)).mp hx), if_neg hc]
  refine ⟨?_, ?_, ?_⟩
  · rw [h2]
    split_ifs
    · rcases natCmp_cases a b with h | h | h <;> rw [h] <;> norm_num
    · exact natCmp_cases a b
  · rw [hh]
    exact h2
  · rw [h2]
    have hP1 : (P - 1) / 2 = P / 2 := by omega
    unfold natCmp intCmp signedRep
    rw [hP1]
    split_ifs <;> omega

/-- Claim C2 witness: the amended theorem applied at `P = 13`,
`a = 2`, `b = 11` (signed values `2` and `-2`). -/
theorem cmpInField_amended_witness :
    (cmpInField 2 11 13 = -1 ∨ cmpInField 2 11 13 = 0 ∨ cmpInField 2 11 13 = 1) ∧
    cmpInField 2 11 13 =
      (if ((2 : ℕ) < 13 >>> 1 ∧ 13 >>> 1 < (11 : ℕ)) ∨
          ((11 : ℕ) < 13 >>> 1 ∧ 13 >>> 1 < (2 : ℕ))
       then -(natCmp 2 11) else natCmp 2 11) ∧
    cmpInField 2 11 13 = intCmp (signedRep 2 13) (signedRep 11 13) :=
  cmpInField_amended 13 2 11 (by decide) (by decide) (by decide) (by decide) (by decide)

end Csgo
